import Mathlib

/-!
Verification of the `django-sync-migrations` repository.

The repository consists of two cooperating command-line utilities written in
Python:

* the Migration Resetter (`django_sync_migrations.py`, function `main`), which
  computes the latest migration file per application on a target branch
  (`get_migration_targets`), invokes `manage.py migrate` for each pair, and
  then checks out the target branch; and
* the Migration Resequencer (`resequence_migrations.py`, functions
  `check_for_potential_merge_migrations`, `delete_migration_files`,
  `run_resequence`), which computes the set of migration files present in the
  working tree but not on the target branch, optionally deletes them and runs
  `manage.py makemigrations`.

This file gives a shallow embedding of those functions and proves properties
about them.  Conventions of the embedding:

* The output of an external `git` command is a black box; `git_cmd` returning
  `None` (subprocess failure) is modelled by `Option.none`.  The stdout of
  `git ls-tree -r <branch> --name-only` is modelled directly as its list of
  lines (the Python code only ever consumes `output.splitlines()`); the falsy
  cases (`None` and the empty string, whose `splitlines()` is `[]`) are
  modelled by `none` and `some []`.
* Python dicts are modelled as association lists in insertion order; Python
  sets of strings as `Finset String`; Python string operations are modelled on
  `List Char` (a Python `str` compares and iterates by code point, as does
  `String` here).
* The regular expression `^(.+)/migrations/(\d+)_(.+\.py)$` is modelled by an
  explicit backtracking search: the greedy group `(.+)` means the match uses
  the longest prefix for which the remainder of the pattern succeeds, `(\d+)`
  is the maximal nonempty digit run at its position (it must be followed by
  `_`), and `(.+\.py)$` accepts exactly the suffixes of length at least 4
  ending in `".py"` (lines produced by `splitlines` contain no newline).
* Filesystem state is explicit: a value of type `FS` records the set of
  existing directories and regular files; migration files under a
  `migrations/` directory are regular files.
* The two driver functions `main` and `run_resequence` are embedded as pure
  functions from an environment record (the results of the external
  commands they consult) to the pair of their exit code and the trace of
  mutating external actions they perform (migrate / checkout / file deletion /
  makemigrations).  Print statements are not modelled.  The two helper listers
  `get_all_migration_files_on_branch` and `get_migration_files_in_working_tree`
  imported by `resequence_migrations.py` are not part of the repository's
  sources; their results (mappings from application to set of migration file
  names) appear as inputs of the functions that consume them.
-/

namespace DjangoSync

/-- Python `str.strip()` on a list of characters: remove leading and trailing
whitespace. -/
def pyStrip (cs : List Char) : List Char :=
  ((cs.dropWhile Char.isWhitespace).reverse.dropWhile Char.isWhitespace).reverse

/-- `listStartsWith pat cs` is true when `pat` is an initial segment of `cs`. -/
def listStartsWith : List Char → List Char → Bool
  | [], _ => true
  | _ :: _, [] => false
  | p :: ps, c :: cs => p == c && listStartsWith ps cs

/-- `hasSubseg pat cs` is true when `pat` occurs contiguously inside `cs`
(Python's `pat in cs` on strings). -/
def hasSubseg (pat : List Char) : List Char → Bool
  | [] => pat.isEmpty
  | c :: cs => listStartsWith pat (c :: cs) || hasSubseg pat cs

/-- The numeric value of a digit string, as computed by Python `int`. -/
def digitsToNat (ds : List Char) : Nat :=
  ds.foldl (fun n c => n * 10 + (c.toNat - 48)) 0

/-- The fixed text `"/migrations/"` of the pattern, as a character list. -/
def migSeg : List Char := "/migrations/".toList

/-- Matching the part of the pattern `(\d+)_(.+\.py)$` that follows
`"/migrations/"`: a maximal nonempty digit run, an underscore, and a tail of
length at least 4 ending in `".py"`.  Returns the two captured groups
`(num_str, name_part)`. -/
def parseRest (rest : List Char) : Option (List Char × List Char) :=
  if (rest.takeWhile Char.isDigit).isEmpty then none
  else
    match rest.dropWhile Char.isDigit with
    | '_' :: tail =>
        if 4 ≤ tail.length ∧ tail.drop (tail.length - 3) = ['.', 'p', 'y'] then
          some (rest.takeWhile Char.isDigit, tail)
        else none
    | _ => none

/-- Backtracking search for `^(.+)/migrations/(\d+)_(.+\.py)$`: `pre` is the
text already consumed by the greedy group `(.+)`.  The recursive result (a
split further right) is preferred, so the successful split with the longest
first group wins, exactly as for a greedy `(.+)`.  Returns the three captured
groups. -/
def migMatchAux : List Char → List Char → Option (List Char × List Char × List Char)
  | _, [] => none
  | pre, c :: rest =>
    let here : Option (List Char × List Char × List Char) :=
      if pre ≠ [] ∧ listStartsWith migSeg (c :: rest) then
        (parseRest ((c :: rest).drop 12)).map (fun q => (pre, q.1, q.2))
      else none
    match migMatchAux (pre ++ [c]) rest with
    | some r => some r
    | none => here

/-- An entry `(int(num_str), migration_name)` grouped under an application
directory by `get_migration_targets`. -/
abbrev Entry := Nat × String

/-- `pattern.match(line)` for `^(.+)/migrations/(\d+)_(.+\.py)$` followed by
the processing done in the loop body of `get_migration_targets`: on a match
with groups `(app_dir, num_str, name_part)` produce
`(app_dir, (int(num_str), num_str ++ "_" ++ name_part[:-3]))`. -/
def matchMigrationLine (cs : List Char) : Option (String × Entry) :=
  (migMatchAux [] cs).map fun r =>
    (String.mk r.1, (digitsToNat r.2.1, String.mk (r.2.1 ++ '_' :: r.2.2.take (r.2.2.length - 3))))

/-- One iteration of the line loop of `get_migration_targets`: skip lines
containing `"/.venv/"` or `"/site-packages/"`, match the stripped line
against the migration pattern, and apply the `allowed_labels` filter
(`if allowed_labels and app_dir not in allowed_labels: continue`; a `None`
or empty set of labels disables the filter). -/
def parseMigrationLine (allowed : Option (List String)) (line : String) : Option (String × Entry) :=
  let cs := line.toList
  if hasSubseg "/.venv/".toList cs || hasSubseg "/site-packages/".toList cs then none
  else
    match matchMigrationLine (pyStrip cs) with
    | none => none
    | some (app, e) =>
      match allowed with
      | none => some (app, e)
      | some labels => if labels ≠ [] ∧ app ∉ labels then none else some (app, e)

/-- `app_migrations.setdefault(app_dir, []).append(e)` on a Python dict in
insertion order: append `e` to the value at the first occurrence of the key,
or add a new key at the end. -/
def setdefaultAppend : List (String × List Entry) → String → Entry → List (String × List Entry)
  | [], app, e => [(app, [e])]
  | (a, es) :: rest, app, e =>
      if a = app then (a, es ++ [e]) :: rest
      else (a, es) :: setdefaultAppend rest app e

/-- The dict `app_migrations` built by the line loop of
`get_migration_targets`. -/
def buildDict (parsed : List (String × Entry)) : List (String × List Entry) :=
  parsed.foldl (fun d pe => setdefaultAppend d pe.1 pe.2) []

/-- Lexicographic comparison of character lists by code point: exactly the
order Python uses to compare and sort `str` values. -/
def lexLe : List Char → List Char → Bool
  | [], _ => true
  | _ :: _, [] => false
  | a :: as, b :: bs =>
      if a.toNat < b.toNat then true
      else if b.toNat < a.toNat then false
      else lexLe as bs

/-- Comparison of dict items by key, used for `sorted(app_migrations.items())`
(keys of a dict are distinct, so `sorted` never compares the values). -/
def keyLe (p q : String × List Entry) : Prop := lexLe p.1.toList q.1.toList = true

/-- Strict lexicographic order on the `String` keys of the result pairs. -/
def strLt (a b : String) : Prop := lexLe a.toList b.toList = true ∧ a ≠ b

theorem lexLe_total : ∀ x y, lexLe x y = true ∨ lexLe y x = true := by
  intro x
  induction x with
  | nil =>
      intro y
      exact Or.inl rfl
  | cons a as ih =>
      intro y
      cases y with
      | nil => exact Or.inr rfl
      | cons b bs =>
          rw [lexLe, lexLe]
          by_cases hab : a.toNat < b.toNat
          · exact Or.inl (by rw [if_pos hab])
          · by_cases hba : b.toNat < a.toNat
            · exact Or.inr (by rw [if_pos hba])
            · rw [if_neg hab, if_neg hba, if_neg hba, if_neg hab]
              exact ih bs

theorem lexLe_trans : ∀ x y z, lexLe x y = true → lexLe y z = true → lexLe x z = true := by
  intro x
  induction x with
  | nil =>
      intro y z _ _
      rfl
  | cons a as ih =>
      intro y z hxy hyz
      cases y with
      | nil => exact absurd hxy (by rw [lexLe]; simp)
      | cons b bs =>
          cases z with
          | nil => exact absurd hyz (by rw [lexLe]; simp)
          | cons c cs =>
              rw [lexLe] at hxy hyz ⊢
              by_cases hab : a.toNat < b.toNat
              · by_cases hbc : b.toNat < c.toNat
                · rw [if_pos (Nat.lt_trans hab hbc)]
                · by_cases hcb : c.toNat < b.toNat
                  · rw [if_neg hbc, if_pos hcb] at hyz
                    exact absurd hyz (by simp)
                  · have hbceq : b.toNat = c.toNat :=
                      Nat.le_antisymm (Nat.le_of_not_lt hcb) (Nat.le_of_not_lt hbc)
                    rw [if_pos (hbceq ▸ hab)]
              · by_cases hba : b.toNat < a.toNat
                · rw [if_neg hab, if_pos hba] at hxy
                  exact absurd hxy (by simp)
                · have habeq : a.toNat = b.toNat :=
                    Nat.le_antisymm (Nat.le_of_not_lt hba) (Nat.le_of_not_lt hab)
                  rw [if_neg hab, if_neg hba] at hxy
                  by_cases hbc : b.toNat < c.toNat
                  · rw [if_pos (habeq ▸ hbc)]
                  · by_cases hcb : c.toNat < b.toNat
                    · rw [if_neg hbc, if_pos hcb] at hyz
                      exact absurd hyz (by simp)
                    · rw [if_neg hbc, if_neg hcb] at hyz
                      have hac : ¬ a.toNat < c.toNat := by
                        rw [habeq]
                        exact hbc
                      have hca : ¬ c.toNat < a.toNat := by
                        rw [habeq]
                        exact hcb
                      rw [if_neg hac, if_neg hca]
                      exact ih bs cs hxy hyz

theorem lexLe_antisymm : ∀ x y, lexLe x y = true → lexLe y x = true → x = y := by
  intro x
  induction x with
  | nil =>
      intro y _ hyx
      cases y with
      | nil => rfl
      | cons b bs => exact absurd hyx (by rw [lexLe]; simp)
  | cons a as ih =>
      intro y hxy hyx
      cases y with
      | nil => exact absurd hxy (by rw [lexLe]; simp)
      | cons b bs =>
          rw [lexLe] at hxy hyx
          by_cases hab : a.toNat < b.toNat
          · rw [if_neg (Nat.lt_asymm hab), if_pos hab] at hyx
            exact absurd hyx (by simp)
          · by_cases hba : b.toNat < a.toNat
            · rw [if_neg hab, if_pos hba] at hxy
              exact absurd hxy (by simp)
            · rw [if_neg hab, if_neg hba] at hxy
              rw [if_neg hba, if_neg hab] at hyx
              have habeq : a.toNat = b.toNat :=
                Nat.le_antisymm (Nat.le_of_not_lt hba) (Nat.le_of_not_lt hab)
              have hchar : a = b := by
                rw [← Char.ofNat_toNat a, ← Char.ofNat_toNat b, habeq]
              rw [hchar, ih bs hxy hyx]

instance : DecidableRel keyLe :=
  fun p q => inferInstanceAs (Decidable (lexLe p.1.toList q.1.toList = true))

instance : IsTotal (String × List Entry) keyLe := ⟨fun p q => lexLe_total p.1.toList q.1.toList⟩

instance : IsTrans (String × List Entry) keyLe := ⟨fun _ _ _ h h' => lexLe_trans _ _ _ h h'⟩

/-- `sorted(app_migrations.items())`. -/
def sortItems (d : List (String × List Entry)) : List (String × List Entry) :=
  d.insertionSort keyLe

/-- Python `max(migrations, key=lambda x: x[0])` starting from first element
`x`: later elements replace the current maximum only when strictly greater,
so among equal keys the first one encountered is kept. -/
def pymaxFold (x : Entry) (xs : List Entry) : Entry :=
  xs.foldl (fun acc y => if acc.1 < y.1 then y else acc) x

/-- `max(migrations, key=lambda x: x[0])` on a list (the lists stored in
`app_migrations` are never empty; the empty case is junk). -/
def pymaxList : List Entry → Entry
  | [] => (0, "")
  | x :: xs => pymaxFold x xs

/-- `get_migration_targets(branch, repo_root, allowed_labels)`.  The stdout of
`git ls-tree -r branch --name-only` is modelled as its list of lines
(`none` models a failed subprocess, for which `git_cmd` returns `None` and
`get_migration_targets` returns `[]`; `some []` models empty stdout, the other
falsy case, for which the loop below runs zero times and the result is also
`[]`). -/
def get_migration_targets (output : Option (List String))
    (allowed_labels : Option (List String)) : List (String × String) :=
  match output with
  | none => []
  | some lines =>
    let parsed := lines.filterMap (parseMigrationLine allowed_labels)
    (sortItems (buildDict parsed)).map (fun p => (p.1, (pymaxList p.2).2))

/-- The entries `(int(num_str), migration_name)` that the line loop of
`get_migration_targets` accumulates for the application `app`, in listing
order. -/
def appEntries (allowed : Option (List String)) (lines : List String) (app : String) :
    List Entry :=
  ((lines.filterMap (parseMigrationLine allowed)).filter (fun e => e.1 = app)).map (fun e => e.2)

/-! ### Lemmas about the pattern matcher -/

theorem listStartsWith_iff (pat : List Char) :
    ∀ cs, listStartsWith pat cs = true ↔ ∃ t, pat ++ t = cs := by
  induction pat with
  | nil =>
      intro cs
      simp [listStartsWith]
  | cons p ps ih =>
      intro cs
      cases cs with
      | nil =>
          simp [listStartsWith]
      | cons c cs' =>
          simp only [listStartsWith, Bool.and_eq_true, beq_iff_eq, ih]
          constructor
          · rintro ⟨rfl, t, rfl⟩
            exact ⟨t, rfl⟩
          · rintro ⟨t, h⟩
            rw [List.cons_append] at h
            cases h
            exact ⟨rfl, t, rfl⟩

theorem takeWhile_dropWhile_of_all {p : Char → Bool} {l : List Char} {c : Char}
    (hl : ∀ x ∈ l, p x = true) (hc : p c = false) (t : List Char) :
    (l ++ c :: t).takeWhile p = l ∧ (l ++ c :: t).dropWhile p = c :: t := by
  induction l with
  | nil =>
      simp [List.takeWhile, List.dropWhile, hc]
  | cons a l ih =>
      have ha : p a = true := hl a (List.mem_cons_self a l)
      have ih' := ih (fun x hx => hl x (List.mem_cons_of_mem a hx))
      simp [List.takeWhile, List.dropWhile, ha, ih'.1, ih'.2]

theorem parseRest_eq_some {t num tail : List Char} (h : parseRest t = some (num, tail)) :
    t = num ++ '_' :: tail ∧ num ≠ [] ∧ (∀ c ∈ num, c.isDigit = true) ∧
      4 ≤ tail.length ∧ tail.drop (tail.length - 3) = ['.', 'p', 'y'] := by
  unfold parseRest at h
  split at h
  · exact absurd h (by simp)
  · rename_i hne
    split at h
    · rename_i tail0 heq
      split at h
      · rename_i hcond
        obtain ⟨h1, h2⟩ : t.takeWhile Char.isDigit = num ∧ tail0 = tail := by
          cases h; exact ⟨rfl, rfl⟩
        subst h2
        refine ⟨?_, ?_, ?_, hcond.1, hcond.2⟩
        · conv_lhs => rw [← List.takeWhile_append_dropWhile (p := Char.isDigit) (l := t)]
          rw [heq, h1]
        · rw [← h1]; simpa using hne
        · intro c hc
          rw [← h1] at hc
          exact List.mem_takeWhile_imp hc
      · exact absurd h (by simp)
    · exact absurd h (by simp)

theorem parseRest_complete {num tail : List Char} (hnum : num ≠ [])
    (hdig : ∀ c ∈ num, c.isDigit = true) (hlen : 4 ≤ tail.length)
    (hpy : tail.drop (tail.length - 3) = ['.', 'p', 'y']) :
    parseRest (num ++ '_' :: tail) = some (num, tail) := by
  have hu : Char.isDigit '_' = false := by decide
  obtain ⟨htake, hdrop⟩ := takeWhile_dropWhile_of_all hdig hu tail
  unfold parseRest
  rw [htake, hdrop]
  simp [hnum, hlen, hpy]

theorem migMatchAux_shape :
    ∀ cs pre a num tail, migMatchAux pre cs = some (a, num, tail) →
      pre ++ cs = a ++ migSeg ++ num ++ '_' :: tail ∧ a ≠ [] ∧ num ≠ [] ∧
        (∀ c ∈ num, c.isDigit = true) ∧ 4 ≤ tail.length ∧
        tail.drop (tail.length - 3) = ['.', 'p', 'y'] := by
  intro cs
  induction cs with
  | nil =>
      intro pre a num tail h
      exact absurd h (by simp [migMatchAux])
  | cons c rest ih =>
      intro pre a num tail h
      rw [migMatchAux] at h
      cases hrec : migMatchAux (pre ++ [c]) rest with
      | some r =>
          rw [hrec] at h
          cases h
          have := ih (pre ++ [c]) a num tail hrec
          rwa [List.append_assoc, List.singleton_append] at this
      | none =>
          rw [hrec] at h
          simp only at h
          split at h
          · rename_i hcond
            obtain ⟨hpre, hstart⟩ := hcond
            obtain ⟨q, hq, hq2⟩ := Option.map_eq_some'.mp h
            obtain ⟨rfl, hq12⟩ : pre = a ∧ (q.1 = num ∧ q.2 = tail) := by
              cases hq2; exact ⟨rfl, rfl, rfl⟩
            obtain ⟨hq1, hq2'⟩ := hq12
            obtain ⟨t, ht⟩ := (listStartsWith_iff _ _).mp hstart
            have hdrop : (c :: rest).drop 12 = t := by
              rw [← ht]
              have h12 : (12 : Nat) = migSeg.length := by decide
              rw [h12, List.drop_left]
            rw [hdrop] at hq
            obtain ⟨ht2, hnum, hdig, hlen, hpy⟩ := parseRest_eq_some hq
            rw [hq1, hq2'] at ht2
            rw [hq1] at hnum hdig
            rw [hq2'] at hlen hpy
            refine ⟨?_, hpre, hnum, hdig, hlen, hpy⟩
            rw [← ht, ht2]
            simp [List.append_assoc]
          · exact absurd h (by simp)

theorem migMatchAux_complete :
    ∀ p cs pre num tail, cs = p ++ migSeg ++ num ++ '_' :: tail →
      pre ++ p ≠ [] → num ≠ [] → (∀ c ∈ num, c.isDigit = true) →
      4 ≤ tail.length → tail.drop (tail.length - 3) = ['.', 'p', 'y'] →
      (migMatchAux pre cs).isSome = true := by
  intro p
  induction p with
  | nil =>
      intro cs pre num tail hcs hpre hnum hdig hlen hpy
      simp only [List.nil_append] at hcs
      have hcs' : cs = '/' :: ("migrations/".toList ++ num ++ '_' :: tail) := by
        rw [hcs]; rfl
      rw [List.append_nil] at hpre
      have hstart : listStartsWith migSeg cs = true := by
        rw [listStartsWith_iff]
        exact ⟨num ++ '_' :: tail, by rw [hcs, List.append_assoc]⟩
      have hdropcs : cs.drop 12 = num ++ '_' :: tail := by
        have h12 : migSeg.length = 12 := by decide
        rw [hcs, List.append_assoc, ← h12, List.drop_left]
      have hparse : parseRest (cs.drop 12) = some (num, tail) := by
        rw [hdropcs]
        exact parseRest_complete hnum hdig hlen hpy
      rw [hcs']
      rw [migMatchAux]
      cases hrec : migMatchAux (pre ++ ['/']) ("migrations/".toList ++ num ++ '_' :: tail) with
      | some r => simp
      | none =>
          simp only
          rw [← hcs', if_pos ⟨hpre, hstart⟩, hparse]
          simp
  | cons d p' ih =>
      intro cs pre num tail hcs hpre hnum hdig hlen hpy
      have hcs' : cs = d :: (p' ++ migSeg ++ num ++ '_' :: tail) := by
        rw [hcs]; rfl
      rw [hcs']
      rw [migMatchAux]
      have hpre' : (pre ++ [d]) ++ p' ≠ [] := by
        intro hcontra
        have : d ∈ ((pre ++ [d]) ++ p' : List Char) := by simp
        rw [hcontra] at this
        exact absurd this (List.not_mem_nil d)
      have := ih (p' ++ migSeg ++ num ++ '_' :: tail) (pre ++ [d]) num tail rfl hpre' hnum hdig hlen hpy
      cases hrec : migMatchAux (pre ++ [d]) (p' ++ migSeg ++ num ++ '_' :: tail) with
      | some r => simp
      | none =>
          rw [hrec] at this
          simp at this

/-! ### Lemmas about the grouping dict -/

/-- Reading a Python dict modelled as an association list: the value at the
first occurrence of the key (`[]` when absent; the dicts built by
`get_migration_targets` have distinct keys). -/
def alistGet : List (String × List Entry) → String → List Entry
  | [], _ => []
  | (a, es) :: rest, app => if a = app then es else alistGet rest app

theorem alistGet_setdefaultAppend (d : List (String × List Entry)) (a app : String) (e : Entry) :
    alistGet (setdefaultAppend d a e) app =
      if app = a then alistGet d app ++ [e] else alistGet d app := by
  induction d with
  | nil =>
      by_cases h : app = a
      · subst h
        simp [setdefaultAppend, alistGet]
      · have h' : ¬ a = app := fun hc => h hc.symm
        simp [setdefaultAppend, alistGet, h, h']
  | cons hd rest ih =>
      obtain ⟨b, es⟩ := hd
      by_cases hba : b = a
      · subst hba
        by_cases hb : b = app
        · subst hb
          simp [setdefaultAppend, alistGet]
        · have hb' : ¬ app = b := fun hc => hb hc.symm
          simp [setdefaultAppend, alistGet, hb, hb']
      · rw [setdefaultAppend, if_neg hba]
        by_cases hb : b = app
        · have h2 : ¬ app = a := fun hc => hba (hb.trans hc)
          simp [alistGet, hb, h2]
        · simp only [alistGet, if_neg hb]
          rw [ih]

theorem alistGet_foldl (parsed : List (String × Entry)) :
    ∀ (d : List (String × List Entry)) (app : String),
      alistGet (parsed.foldl (fun d pe => setdefaultAppend d pe.1 pe.2) d) app =
        alistGet d app ++ (parsed.filter (fun e => e.1 = app)).map (fun e => e.2) := by
  induction parsed with
  | nil =>
      intro d app
      simp
  | cons pe parsed' ih =>
      intro d app
      rw [List.foldl_cons, ih]
      rw [alistGet_setdefaultAppend]
      by_cases h : pe.1 = app
      · rw [if_pos h.symm, List.filter_cons_of_pos (by simpa using h)]
        simp
      · rw [if_neg (fun hc => h hc.symm), List.filter_cons_of_neg (by simpa using h)]

theorem alistGet_buildDict (parsed : List (String × Entry)) (app : String) :
    alistGet (buildDict parsed) app =
      (parsed.filter (fun e => e.1 = app)).map (fun e => e.2) := by
  rw [buildDict, alistGet_foldl]
  rfl

theorem keys_setdefaultAppend (d : List (String × List Entry)) (a : String) (e : Entry) :
    (setdefaultAppend d a e).map Prod.fst =
      if a ∈ d.map Prod.fst then d.map Prod.fst else d.map Prod.fst ++ [a] := by
  induction d with
  | nil =>
      simp [setdefaultAppend]
  | cons hd rest ih =>
      obtain ⟨b, es⟩ := hd
      by_cases hba : b = a
      · subst hba
        simp [setdefaultAppend]
      · have hab : ¬ a = b := fun hc => hba hc.symm
        by_cases hmem : a ∈ rest.map Prod.fst
        · simp [setdefaultAppend, hba, ih, hmem, hab]
        · simp [setdefaultAppend, hba, ih, hmem, hab]

theorem nodup_keys_setdefaultAppend {d : List (String × List Entry)}
    (hd : (d.map Prod.fst).Nodup) (a : String) (e : Entry) :
    ((setdefaultAppend d a e).map Prod.fst).Nodup := by
  rw [keys_setdefaultAppend]
  by_cases hmem : a ∈ d.map Prod.fst
  · rwa [if_pos hmem]
  · rw [if_neg hmem]
    simp [List.nodup_append, hd, hmem]

theorem nodup_keys_foldl (parsed : List (String × Entry)) :
    ∀ (d : List (String × List Entry)), (d.map Prod.fst).Nodup →
      (((parsed.foldl (fun d pe => setdefaultAppend d pe.1 pe.2) d)).map Prod.fst).Nodup := by
  induction parsed with
  | nil =>
      intro d hd
      simpa using hd
  | cons pe parsed' ih =>
      intro d hd
      rw [List.foldl_cons]
      exact ih _ (nodup_keys_setdefaultAppend hd pe.1 pe.2)

theorem nodup_keys_buildDict (parsed : List (String × Entry)) :
    ((buildDict parsed).map Prod.fst).Nodup :=
  nodup_keys_foldl parsed [] (by simp)

theorem mem_keys_foldl (parsed : List (String × Entry)) :
    ∀ (d : List (String × List Entry)) (a : String),
      a ∈ ((parsed.foldl (fun d pe => setdefaultAppend d pe.1 pe.2) d)).map Prod.fst ↔
        a ∈ d.map Prod.fst ∨ ∃ e ∈ parsed, e.1 = a := by
  induction parsed with
  | nil =>
      intro d a
      simp
  | cons pe parsed' ih =>
      intro d a
      rw [List.foldl_cons, ih]
      rw [keys_setdefaultAppend]
      by_cases hmem : pe.1 ∈ d.map Prod.fst
      · rw [if_pos hmem]
        constructor
        · rintro (h | ⟨e, he, rfl⟩)
          · exact Or.inl h
          · exact Or.inr ⟨e, List.mem_cons_of_mem pe he, rfl⟩
        · rintro (h | ⟨e, he, rfl⟩)
          · exact Or.inl h
          · rcases List.mem_cons.mp he with rfl | he'
            · exact Or.inl hmem
            · exact Or.inr ⟨e, he', rfl⟩
      · rw [if_neg hmem]
        constructor
        · rintro (h | ⟨e, he, rfl⟩)
          · rcases List.mem_append.mp h with h' | h'
            · exact Or.inl h'
            · exact Or.inr ⟨pe, List.mem_cons_self pe parsed', (List.mem_singleton.mp h').symm⟩
          · exact Or.inr ⟨e, List.mem_cons_of_mem pe he, rfl⟩
        · rintro (h | ⟨e, he, rfl⟩)
          · exact Or.inl (List.mem_append.mpr (Or.inl h))
          · rcases List.mem_cons.mp he with rfl | he'
            · exact Or.inl (List.mem_append.mpr (Or.inr (List.mem_singleton.mpr rfl)))
            · exact Or.inr ⟨e, he', rfl⟩

theorem mem_keys_buildDict (parsed : List (String × Entry)) (a : String) :
    a ∈ (buildDict parsed).map Prod.fst ↔ ∃ e ∈ parsed, e.1 = a := by
  rw [buildDict, mem_keys_foldl]
  simp

theorem alistGet_of_mem :
    ∀ (d : List (String × List Entry)), (d.map Prod.fst).Nodup →
      ∀ app es, (app, es) ∈ d → alistGet d app = es := by
  intro d
  induction d with
  | nil =>
      intro _ app es h
      exact absurd h (List.not_mem_nil _)
  | cons hd rest ih =>
      obtain ⟨b, bs⟩ := hd
      intro hnd app es h
      have hnd' : (b :: rest.map Prod.fst).Nodup := by
        rw [List.map_cons] at hnd
        exact hnd
      rcases List.mem_cons.mp h with heq | hmem
      · cases heq
        simp [alistGet]
      · have hb : b ≠ app := by
          intro hc
          subst hc
          exact (List.nodup_cons.mp hnd').1 (List.mem_map.mpr ⟨(b, es), hmem, rfl⟩)
        simp only [alistGet, if_neg hb]
        exact ih (List.nodup_cons.mp hnd').2 app es hmem

theorem mem_of_mem_keys :
    ∀ (d : List (String × List Entry)) (app : String),
      app ∈ d.map Prod.fst → (app, alistGet d app) ∈ d := by
  intro d
  induction d with
  | nil =>
      intro app h
      simp at h
  | cons hd rest ih =>
      obtain ⟨b, bs⟩ := hd
      intro app h
      by_cases hb : b = app
      · subst hb
        simp only [alistGet, if_pos rfl]
        exact List.mem_cons_self _ _
      · simp only [alistGet, if_neg hb]
        rw [List.map_cons] at h
        rcases List.mem_cons.mp h with h' | h'
        · exact absurd (h'.symm : b = app) hb
        · exact List.mem_cons_of_mem _ (ih app h')

/-! ### Lemmas about the Python `max` -/

theorem pymaxFold_cons (x y : Entry) (xs : List Entry) :
    pymaxFold x (y :: xs) = pymaxFold (if x.1 < y.1 then y else x) xs := rfl

theorem pymaxFold_mem : ∀ (xs : List Entry) (x : Entry), pymaxFold x xs ∈ x :: xs := by
  intro xs
  induction xs with
  | nil =>
      intro x
      simp [pymaxFold]
  | cons y xs ih =>
      intro x
      rw [pymaxFold_cons]
      rcases List.mem_cons.mp (ih (if x.1 < y.1 then y else x)) with h | h
      · rw [h]
        by_cases hxy : x.1 < y.1
        · simp [hxy]
        · simp [hxy]
      · exact List.mem_cons_of_mem _ (List.mem_cons_of_mem _ h)

theorem pymaxFold_le :
    ∀ (xs : List Entry) (x y : Entry), y ∈ x :: xs → y.1 ≤ (pymaxFold x xs).1 := by
  intro xs
  induction xs with
  | nil =>
      intro x y hy
      rcases List.mem_cons.mp hy with rfl | h
      · exact le_refl _
      · exact absurd h (List.not_mem_nil _)
  | cons z xs ih =>
      intro x y hy
      rw [pymaxFold_cons]
      have hx' : x.1 ≤ (if x.1 < z.1 then z else x).1 := by
        by_cases h : x.1 < z.1
        · rw [if_pos h]; exact le_of_lt h
        · rw [if_neg h]
      have hz' : z.1 ≤ (if x.1 < z.1 then z else x).1 := by
        by_cases h : x.1 < z.1
        · rw [if_pos h]
        · rw [if_neg h]; exact le_of_not_lt h
      have hhead := ih (if x.1 < z.1 then z else x) _ (List.mem_cons_self _ _)
      rcases List.mem_cons.mp hy with rfl | hy'
      · exact le_trans hx' hhead
      · rcases List.mem_cons.mp hy' with rfl | hy''
        · exact le_trans hz' hhead
        · exact ih _ _ (List.mem_cons_of_mem _ hy'')

theorem pymaxFold_first :
    ∀ (xs : List Entry) (x : Entry), ∃ l₁ l₂,
      x :: xs = l₁ ++ pymaxFold x xs :: l₂ ∧ ∀ y ∈ l₁, y.1 < (pymaxFold x xs).1 := by
  intro xs
  induction xs with
  | nil =>
      intro x
      exact ⟨[], [], by simp [pymaxFold], by simp⟩
  | cons y xs ih =>
      intro x
      rw [pymaxFold_cons]
      obtain ⟨l₁, l₂, heq, hlt⟩ := ih (if x.1 < y.1 then y else x)
      by_cases hxy : x.1 < y.1
      · rw [if_pos hxy] at heq hlt ⊢
        refine ⟨x :: l₁, l₂, by rw [List.cons_append, ← heq], ?_⟩
        intro z hz
        rcases List.mem_cons.mp hz with rfl | hz'
        · exact lt_of_lt_of_le hxy (pymaxFold_le xs y _ (List.mem_cons_self _ _))
        · exact hlt z hz'
      · rw [if_neg hxy] at heq hlt ⊢
        cases l₁ with
        | nil =>
            simp only [List.nil_append] at heq
            have hmx : pymaxFold x xs = x := ((List.cons.injEq _ _ _ _).mp heq).1.symm
            refine ⟨[], y :: xs, ?_, by simp⟩
            rw [hmx]
            simp
        | cons x₀ t =>
            rw [List.cons_append] at heq
            obtain ⟨hx0, hxs⟩ := (List.cons.injEq _ _ _ _).mp heq
            subst hx0
            have hxm : x.1 < (pymaxFold x xs).1 := hlt x (List.mem_cons_self _ _)
            refine ⟨x :: y :: t, l₂, ?_, ?_⟩
            · conv_lhs => rw [hxs]
              simp
            · intro z hz
              rcases List.mem_cons.mp hz with rfl | hz'
              · exact hxm
              · rcases List.mem_cons.mp hz' with rfl | hz''
                · exact lt_of_le_of_lt (le_of_not_lt hxy) hxm
                · exact hlt z (List.mem_cons_of_mem _ hz'')

theorem pymaxList_mem {es : List Entry} (h : es ≠ []) : pymaxList es ∈ es := by
  cases es with
  | nil => exact absurd rfl h
  | cons x xs => exact pymaxFold_mem xs x

theorem pymaxList_le {es : List Entry} {y : Entry} (hy : y ∈ es) :
    y.1 ≤ (pymaxList es).1 := by
  cases es with
  | nil => exact absurd hy (List.not_mem_nil _)
  | cons x xs => exact pymaxFold_le xs x y hy

theorem pymaxList_first {es : List Entry} (h : es ≠ []) :
    ∃ l₁ l₂, es = l₁ ++ pymaxList es :: l₂ ∧ ∀ y ∈ l₁, y.1 < (pymaxList es).1 := by
  cases es with
  | nil => exact absurd rfl h
  | cons x xs => exact pymaxFold_first xs x

/-! ### Lemmas about the sorted result -/

theorem sortItems_perm (d : List (String × List Entry)) : List.Perm (sortItems d) d :=
  List.perm_insertionSort keyLe d

theorem sortItems_sorted (d : List (String × List Entry)) :
    List.Sorted keyLe (sortItems d) :=
  List.sorted_insertionSort keyLe d

theorem strLt_asymm {a b : String} (h : strLt a b) (h' : strLt b a) : False := by
  have h2 := lexLe_antisymm _ _ h.1 h'.1
  have h3 := congrArg String.mk h2
  exact h.2 h3

theorem sortItems_pairwise_lt {d : List (String × List Entry)}
    (hnd : (d.map Prod.fst).Nodup) :
    (sortItems d).Pairwise (fun p q => strLt p.1 q.1) := by
  have hperm : List.Perm ((sortItems d).map Prod.fst) (d.map Prod.fst) := (sortItems_perm d).map _
  have hnd' : ((sortItems d).map Prod.fst).Nodup := hnd.perm hperm.symm
  have hne : (sortItems d).Pairwise (fun p q => p.1 ≠ q.1) := List.pairwise_map.mp hnd'
  have hle : (sortItems d).Pairwise keyLe := sortItems_sorted d
  exact (hle.and hne).imp (fun h => ⟨h.1, h.2⟩)

theorem appEntries_eq (al : Option (List String)) (lines : List String) (app : String) :
    appEntries al lines app =
      alistGet (buildDict (lines.filterMap (parseMigrationLine al))) app :=
  (alistGet_buildDict _ app).symm

theorem appEntries_ne_nil_iff (al : Option (List String)) (lines : List String) (app : String) :
    appEntries al lines app ≠ [] ↔
      ∃ e ∈ lines.filterMap (parseMigrationLine al), e.1 = app := by
  rw [appEntries]
  constructor
  · intro h
    rcases hf : (lines.filterMap (parseMigrationLine al)).filter (fun e => e.1 = app) with _ | ⟨e, t⟩
    · rw [hf] at h
      simp at h
    · have he : e ∈ (lines.filterMap (parseMigrationLine al)).filter (fun e => e.1 = app) := by
        rw [hf]; exact List.mem_cons_self _ _
      obtain ⟨he1, he2⟩ := List.mem_filter.mp he
      exact ⟨e, he1, by simpa using he2⟩
  · rintro ⟨e, he, ha⟩
    have : e ∈ (lines.filterMap (parseMigrationLine al)).filter (fun e => e.1 = app) :=
      List.mem_filter.mpr ⟨he, by simpa using ha⟩
    intro hc
    rw [List.map_eq_nil_iff] at hc
    rw [hc] at this
    exact List.not_mem_nil _ this

/-- Membership characterization of the Resetter's target list: `(app, mig)` is
returned exactly when some parsed line belongs to `app` and `mig` is the
second component of the Python-`max` of the entries accumulated for `app` in
listing order. -/
theorem get_migration_targets_mem_iff (al : Option (List String)) (lines : List String)
    (app : String) (mig : String) :
    (app, mig) ∈ get_migration_targets (some lines) al ↔
      appEntries al lines app ≠ [] ∧ (pymaxList (appEntries al lines app)).2 = mig := by
  unfold get_migration_targets
  simp only
  constructor
  · intro h
    obtain ⟨p, hp, hfp⟩ := List.mem_map.mp h
    obtain ⟨rfl, rfl⟩ : p.1 = app ∧ (pymaxList p.2).2 = mig := by
      cases hfp; exact ⟨rfl, rfl⟩
    have hpd : p ∈ buildDict (lines.filterMap (parseMigrationLine al)) :=
      (sortItems_perm _).subset hp
    have hget : alistGet (buildDict (lines.filterMap (parseMigrationLine al))) p.1 = p.2 :=
      alistGet_of_mem (buildDict (lines.filterMap (parseMigrationLine al)))
        (nodup_keys_buildDict _) p.1 p.2 (by simpa using hpd)
    have hkey : p.1 ∈ (buildDict (lines.filterMap (parseMigrationLine al))).map Prod.fst :=
      List.mem_map.mpr ⟨p, hpd, rfl⟩
    have hne : appEntries al lines p.1 ≠ [] := by
      rw [appEntries_ne_nil_iff]
      exact (mem_keys_buildDict _ _).mp hkey
    refine ⟨hne, ?_⟩
    rw [appEntries_eq, hget]
  · rintro ⟨hne, rfl⟩
    have hkey : app ∈ (buildDict (lines.filterMap (parseMigrationLine al))).map Prod.fst :=
      (mem_keys_buildDict _ _).mpr ((appEntries_ne_nil_iff al lines app).mp hne)
    have hmem := mem_of_mem_keys _ app hkey
    have hmem' : (app, alistGet (buildDict (lines.filterMap (parseMigrationLine al))) app) ∈
        sortItems (buildDict (lines.filterMap (parseMigrationLine al))) :=
      (sortItems_perm _).mem_iff.mpr hmem
    refine List.mem_map.mpr ⟨_, hmem', ?_⟩
    rw [← appEntries_eq]

/-- The Resetter's target list is strictly ascending in the application
directory, hence contains at most one entry per application. -/
theorem get_migration_targets_pairwise (output : Option (List String))
    (al : Option (List String)) :
    (get_migration_targets output al).Pairwise (fun p q => strLt p.1 q.1) := by
  cases output with
  | none => simp [get_migration_targets]
  | some lines =>
      unfold get_migration_targets
      simp only
      refine List.Pairwise.map _ ?_ (sortItems_pairwise_lt (nodup_keys_buildDict _))
      intro a b h
      exact h

theorem parseMigrationLine_eq_some {al : Option (List String)} {line : String}
    {pe : String × Entry} (h : parseMigrationLine al line = some pe) :
    ∃ pre num tail, migMatchAux [] (pyStrip line.toList) = some (pre, num, tail) ∧
      pe.1 = String.mk pre ∧
      pe.2 = (digitsToNat num, String.mk (num ++ '_' :: tail.take (tail.length - 3))) := by
  unfold parseMigrationLine at h
  simp only at h
  split at h
  · exact absurd h (by simp)
  · split at h
    · exact absurd h (by simp)
    · rename_i app0 e0 hm
      have hpe : pe = (app0, e0) := by
        cases al with
        | none =>
            simp only at h
            exact (Option.some.injEq _ _).mp h |>.symm
        | some labels =>
            simp only at h
            split at h
            · exact absurd h (by simp)
            · exact (Option.some.injEq _ _).mp h |>.symm
      subst hpe
      rw [matchMigrationLine] at hm
      obtain ⟨r, hr, hr2⟩ := Option.map_eq_some'.mp hm
      refine ⟨r.1, r.2.1, r.2.2, hr, ?_, ?_⟩
      · exact congrArg Prod.fst hr2.symm
      · exact congrArg Prod.snd hr2.symm

theorem appEntries_mem {al : Option (List String)} {lines : List String} {app : String}
    {e : Entry} (he : e ∈ appEntries al lines app) :
    ∃ line ∈ lines, parseMigrationLine al line = some (app, e) := by
  rw [appEntries] at he
  obtain ⟨pe, hpe, rfl⟩ := List.mem_map.mp he
  obtain ⟨hpe1, hpe2⟩ := List.mem_filter.mp hpe
  obtain ⟨line, hl, hparse⟩ := List.mem_filterMap.mp hpe1
  have hfst : pe.1 = app := by simpa using hpe2
  refine ⟨line, hl, ?_⟩
  rw [hparse, ← hfst]

/-! ### Claim C7 -/

/-- C7 counterexample: the Lister's pattern uses `(\d+)`, not a 4-digit
number; the path `app/migrations/1_init.py`, whose numeric prefix has a
single digit, is matched and grouped under application `app`, contradicting
the claim that only 4-digit prefixes are recognized. -/
theorem c7_counterexample :
    parseMigrationLine none "app/migrations/1_init.py" = some ("app", (1, "1_init")) ∧
    get_migration_targets (some ["app/migrations/1_init.py"]) none = [("app", "1_init")] := by
  constructor
  · rfl
  · rfl

/-- C7 (amended): the Lister recognizes a path exactly when it decomposes as
`<app-dir>/migrations/<digits>_<name>.py` with a nonempty application
directory, a nonempty run of digits of ANY length (not necessarily four), and
a nonempty name before the `.py` suffix; and only recognized (stripped) lines
are grouped by `get_migration_targets`'s loop. -/
theorem c7_amended :
    (∀ cs : List Char,
      ((matchMigrationLine cs).isSome = true ↔
        ∃ pre num tail, cs = pre ++ migSeg ++ num ++ '_' :: tail ∧ pre ≠ [] ∧ num ≠ [] ∧
          (∀ c ∈ num, c.isDigit = true) ∧ 4 ≤ tail.length ∧
          tail.drop (tail.length - 3) = ['.', 'p', 'y'])) ∧
    (∀ al line pe, parseMigrationLine al line = some pe →
      (matchMigrationLine (pyStrip line.toList)).isSome = true) := by
  constructor
  · intro cs
    constructor
    · intro h
      rw [matchMigrationLine] at h
      cases hm : migMatchAux [] cs with
      | none =>
          rw [hm] at h
          simp at h
      | some r =>
          obtain ⟨heq, hpre, hnum, hdig, hlen, hpy⟩ :=
            migMatchAux_shape cs [] r.1 r.2.1 r.2.2 hm
          rw [List.nil_append] at heq
          exact ⟨r.1, r.2.1, r.2.2, heq, hpre, hnum, hdig, hlen, hpy⟩
    · rintro ⟨pre, num, tail, rfl, hpre, hnum, hdig, hlen, hpy⟩
      have hsome := migMatchAux_complete pre (pre ++ migSeg ++ num ++ '_' :: tail) [] num tail
        rfl (by simpa using hpre) hnum hdig hlen hpy
      rw [matchMigrationLine]
      cases hm : migMatchAux [] (pre ++ migSeg ++ num ++ '_' :: tail) with
      | none =>
          rw [hm] at hsome
          simp at hsome
      | some r => simp
  · intro al line pe h
    obtain ⟨pre, num, tail, hmig, -, -⟩ := parseMigrationLine_eq_some h
    rw [matchMigrationLine, hmig]
    simp

/-- C7 amended witness: the canonical migration path is recognized, via the
completeness direction of the amended claim at a concrete decomposition. -/
theorem c7_witness : (matchMigrationLine "app/migrations/0001_x.py".toList).isSome = true := by
  refine (c7_amended.1 _).mpr ⟨"app".toList, "0001".toList, "x.py".toList, ?_, ?_, ?_, ?_, ?_, ?_⟩
  · rfl
  · decide
  · decide
  · decide
  · decide
  · decide

/-! ### Claim C8 -/

/-- C8 counterexample: two migration files of the same application with the
same numeric prefix `0002`; Python's `max` keeps the candidate encountered
FIRST in listing order (later elements replace it only when strictly
greater), so the Lister returns `0002_a`, not the last-encountered
`0002_b` that the claim requires. -/
theorem c8_counterexample :
    get_migration_targets (some ["app/migrations/0002_a.py", "app/migrations/0002_b.py"]) none
      = [("app", "0002_a")] ∧ ("0002_a" : String) ≠ "0002_b" := by
  constructor
  · rfl
  · decide

/-- C8 (amended): when several migration files of the same application share
the maximal numeric prefix, the Lister's "latest" selection is the entry
encountered FIRST in listing order among those sharing the maximal prefix:
every returned name comes from an entry that all entries are `≤` on the
numeric prefix and that is preceded only by entries with strictly smaller
prefixes. -/
theorem c8_amended (al : Option (List String)) (lines : List String) (app mig : String)
    (h : (app, mig) ∈ get_migration_targets (some lines) al) :
    ∃ l₁ e l₂, appEntries al lines app = l₁ ++ e :: l₂ ∧ e.2 = mig ∧
      (∀ y ∈ appEntries al lines app, y.1 ≤ e.1) ∧ (∀ y ∈ l₁, y.1 < e.1) := by
  obtain ⟨hne, hmax⟩ := (get_migration_targets_mem_iff al lines app mig).mp h
  obtain ⟨l₁, l₂, heq, hlt⟩ := pymaxList_first hne
  exact ⟨l₁, pymaxList (appEntries al lines app), l₂, heq, hmax,
    fun y hy => pymaxList_le hy, hlt⟩

/-- C8 amended witness, at the tie from the counterexample. -/
theorem c8_witness :
    ∃ l₁ e l₂,
      appEntries none ["app/migrations/0002_a.py", "app/migrations/0002_b.py"] "app"
        = l₁ ++ e :: l₂ ∧ e.2 = "0002_a" ∧
      (∀ y ∈ appEntries none ["app/migrations/0002_a.py", "app/migrations/0002_b.py"] "app",
        y.1 ≤ e.1) ∧ (∀ y ∈ l₁, y.1 < e.1) :=
  c8_amended none ["app/migrations/0002_a.py", "app/migrations/0002_b.py"] "app" "0002_a"
    (by decide)

/-! ### Claim C9 -/

/-- C9: the Resetter's target list has at most one pair per application
directory and is strictly ascending in it (the migrate loop then issues
commands in that order), and every returned migration name is the matched
file name with its trailing `".py"` removed and the numeric prefix kept
verbatim (including leading zeros): it is literally
`num_str ++ "_" ++ name_part[:-3]` for the groups of some matched line. -/
theorem c9_targets_shape (output : Option (List String)) (al : Option (List String)) :
    (get_migration_targets output al).Pairwise (fun p q => strLt p.1 q.1) ∧
    (∀ lines, output = some lines → ∀ p ∈ get_migration_targets output al,
      ∃ line ∈ lines, ∃ pre num tail,
        migMatchAux [] (pyStrip line.toList) = some (pre, num, tail) ∧
        p.1 = String.mk pre ∧
        p.2 = String.mk (num ++ '_' :: tail.take (tail.length - 3)) ∧
        num ≠ [] ∧ (∀ c ∈ num, c.isDigit = true) ∧
        tail.drop (tail.length - 3) = ['.', 'p', 'y']) := by
  refine ⟨get_migration_targets_pairwise output al, ?_⟩
  rintro lines rfl p hp
  obtain ⟨hne, hmax⟩ := (get_migration_targets_mem_iff al lines p.1 p.2).mp (by simpa using hp)
  have hmem : pymaxList (appEntries al lines p.1) ∈ appEntries al lines p.1 :=
    pymaxList_mem hne
  obtain ⟨line, hl, hparse⟩ := appEntries_mem hmem
  obtain ⟨pre, num, tail, hmig, hfst, hsnd⟩ := parseMigrationLine_eq_some hparse
  obtain ⟨-, -, hnum, hdig, -, hpy⟩ := migMatchAux_shape _ _ _ _ _ hmig
  refine ⟨line, hl, pre, num, tail, hmig, by simpa using hfst, ?_, hnum, hdig, hpy⟩
  have hsnd' : pymaxList (appEntries al lines p.1) =
      (digitsToNat num, String.mk (num ++ '_' :: tail.take (tail.length - 3))) := hsnd
  rw [← hmax, hsnd']

/-- C9 witness: concrete two-application listing; the conjuncts of the claim
evaluated via the theorem. -/
theorem c9_witness :
    (get_migration_targets (some ["b/migrations/0001_x.py", "a/migrations/0002_y.py"])
      none).Pairwise (fun p q => strLt p.1 q.1) :=
  (c9_targets_shape (some ["b/migrations/0001_x.py", "a/migrations/0002_y.py"]) none).1

/-! ### Claim C2: order independence of the latest-by-number selection -/

theorem nodup_nums_filter {l : List (String × Entry)} (app : String)
    (h : (l.map (fun e => (e.1, e.2.1))).Nodup) :
    ((l.filter (fun e => e.1 = app)).map (fun e => e.2.1)).Nodup := by
  induction l with
  | nil => simp
  | cons e l ih =>
      rw [List.map_cons, List.nodup_cons] at h
      by_cases he : e.1 = app
      · rw [List.filter_cons_of_pos (by simpa using he), List.map_cons, List.nodup_cons]
        refine ⟨?_, ih h.2⟩
        intro hc
        obtain ⟨x, hx, hx2⟩ := List.mem_map.mp hc
        obtain ⟨hxl, hxa⟩ := List.mem_filter.mp hx
        refine h.1 (List.mem_map.mpr ⟨x, hxl, ?_⟩)
        have hxa' : x.1 = app := by simpa using hxa
        rw [hxa', he, hx2]
      · rw [List.filter_cons_of_neg (by simpa using he)]
        exact ih h.2

theorem nodup_appEntries_nums {al : Option (List String)} {lines : List String}
    (hnd : ((lines.filterMap (parseMigrationLine al)).map (fun e => (e.1, e.2.1))).Nodup)
    (app : String) :
    ((appEntries al lines app).map Prod.fst).Nodup := by
  rw [appEntries, List.map_map]
  exact nodup_nums_filter app hnd

theorem pymaxList_eq_of_perm {es₁ es₂ : List Entry} (hp : List.Perm es₁ es₂)
    (hnd : (es₁.map Prod.fst).Nodup) (hne : es₁ ≠ []) :
    pymaxList es₁ = pymaxList es₂ := by
  have hne₂ : es₂ ≠ [] := by
    intro hc
    rw [hc] at hp
    exact hne hp.eq_nil
  have h₁ := pymaxList_mem hne
  have h₂ := pymaxList_mem hne₂
  have h₂' : pymaxList es₂ ∈ es₁ := hp.mem_iff.mpr h₂
  have hle₁ : (pymaxList es₁).1 ≤ (pymaxList es₂).1 := pymaxList_le (hp.subset h₁)
  have hle₂ : (pymaxList es₂).1 ≤ (pymaxList es₁).1 := pymaxList_le h₂'
  exact List.inj_on_of_nodup_map hnd h₁ h₂' (le_antisymm hle₁ hle₂)

theorem appEntries_perm (al : Option (List String)) {lines₁ lines₂ : List String}
    (hp : List.Perm lines₁ lines₂) (app : String) :
    List.Perm (appEntries al lines₁ app) (appEntries al lines₂ app) :=
  (((hp.filterMap (parseMigrationLine al)).filter _).map _)

theorem keys_buildDict_perm (al : Option (List String)) {lines₁ lines₂ : List String}
    (hp : List.Perm lines₁ lines₂) :
    List.Perm ((buildDict (lines₁.filterMap (parseMigrationLine al))).map Prod.fst)
      ((buildDict (lines₂.filterMap (parseMigrationLine al))).map Prod.fst) := by
  refine (List.perm_ext_iff_of_nodup (nodup_keys_buildDict _) (nodup_keys_buildDict _)).mpr ?_
  intro a
  rw [mem_keys_buildDict, mem_keys_buildDict]
  constructor
  · rintro ⟨e, he, rfl⟩
    exact ⟨e, (hp.filterMap (parseMigrationLine al)).subset he, rfl⟩
  · rintro ⟨e, he, rfl⟩
    exact ⟨e, (hp.filterMap (parseMigrationLine al)).symm.subset he, rfl⟩

theorem map_buildDict_eq (al : Option (List String)) (lines : List String) :
    (buildDict (lines.filterMap (parseMigrationLine al))).map
        (fun p => (p.1, (pymaxList p.2).2)) =
      ((buildDict (lines.filterMap (parseMigrationLine al))).map Prod.fst).map
        (fun app => (app, (pymaxList (appEntries al lines app)).2)) := by
  rw [List.map_map]
  refine List.map_congr_left ?_
  intro p hp
  have hget : alistGet (buildDict (lines.filterMap (parseMigrationLine al))) p.1 = p.2 :=
    alistGet_of_mem _ (nodup_keys_buildDict _) p.1 p.2 (by simpa using hp)
  have : appEntries al lines p.1 = p.2 := by
    rw [appEntries_eq, hget]
  simp only [Function.comp]
  rw [this]

theorem appEntries_ne_nil_of_mem_keys {al : Option (List String)} {lines : List String}
    {app : String}
    (h : app ∈ (buildDict (lines.filterMap (parseMigrationLine al))).map Prod.fst) :
    appEntries al lines app ≠ [] := by
  rw [appEntries_ne_nil_iff]
  exact (mem_keys_buildDict _ _).mp h

/-- C2 counterexample: with a duplicated numeric prefix (which the naming
convention forbids but the code does not reject), the selection depends on
the listing order, so the claim's universally quantified order-independence
fails. -/
theorem c2_counterexample :
    get_migration_targets (some ["app/migrations/0002_a.py", "app/migrations/0002_b.py"]) none ≠
    get_migration_targets (some ["app/migrations/0002_b.py", "app/migrations/0002_a.py"]) none := by
  decide

/-- C2 (amended): when, within each application, the matched entries'
numeric prefixes are pairwise distinct (as the naming convention requires),
the Lister's result is the same for every listing order of the input lines,
every returned pair carries the entry with the maximal numeric prefix of its
application, and every application with at least one matched entry is
returned. -/
theorem c2_amended (al : Option (List String)) (lines₁ lines₂ : List String)
    (hp : List.Perm lines₁ lines₂)
    (hnd : ((lines₁.filterMap (parseMigrationLine al)).map (fun e => (e.1, e.2.1))).Nodup) :
    get_migration_targets (some lines₁) al = get_migration_targets (some lines₂) al ∧
    (∀ p ∈ get_migration_targets (some lines₁) al,
      ∃ e ∈ appEntries al lines₁ p.1, e.2 = p.2 ∧
        ∀ y ∈ appEntries al lines₁ p.1, y.1 ≤ e.1) ∧
    (∀ app, appEntries al lines₁ app ≠ [] →
      (app, (pymaxList (appEntries al lines₁ app)).2) ∈
        get_migration_targets (some lines₁) al) := by
  refine ⟨?_, ?_, ?_⟩
  · -- order independence
    have hnd₂ : ((lines₂.filterMap (parseMigrationLine al)).map (fun e => (e.1, e.2.1))).Nodup :=
      hnd.perm ((hp.filterMap (parseMigrationLine al)).map _)
    have hs₁ := get_migration_targets_pairwise (some lines₁) al
    have hs₂ := get_migration_targets_pairwise (some lines₂) al
    have hvals : ∀ app ∈ (buildDict (lines₂.filterMap (parseMigrationLine al))).map Prod.fst,
        (app, (pymaxList (appEntries al lines₁ app)).2) =
          (app, (pymaxList (appEntries al lines₂ app)).2) := by
      intro app hk
      have hne₂ : appEntries al lines₂ app ≠ [] := appEntries_ne_nil_of_mem_keys hk
      have hne₁ : appEntries al lines₁ app ≠ [] := by
        intro hc
        have hpe := appEntries_perm al hp app
        rw [hc] at hpe
        exact hne₂ hpe.symm.eq_nil
      rw [pymaxList_eq_of_perm (appEntries_perm al hp app) (nodup_appEntries_nums hnd app) hne₁]
    have hperm : List.Perm (get_migration_targets (some lines₁) al)
        (get_migration_targets (some lines₂) al) := by
      unfold get_migration_targets
      simp only
      refine ((sortItems_perm _).map _).trans (List.Perm.trans ?_ ((sortItems_perm _).map _).symm)
      rw [map_buildDict_eq, map_buildDict_eq]
      refine ((keys_buildDict_perm al hp).map _).trans ?_
      rw [List.map_congr_left hvals]
    exact @List.eq_of_perm_of_sorted (String × String) (fun p q => strLt p.1 q.1)
      ⟨fun a b h h' => ((strLt_asymm h h').elim : a = b)⟩ _ _ hperm hs₁ hs₂
  · -- maximality of the selected entry
    intro p hp'
    obtain ⟨hne, hmax⟩ := (get_migration_targets_mem_iff al lines₁ p.1 p.2).mp (by simpa using hp')
    exact ⟨pymaxList (appEntries al lines₁ p.1), pymaxList_mem hne, hmax,
      fun y hy => pymaxList_le hy⟩
  · -- completeness
    intro app hne
    exact (get_migration_targets_mem_iff al lines₁ app _).mpr ⟨hne, rfl⟩

/-- C2 amended witness: concrete two-line listing and its reversal, with
distinct numeric prefixes; the theorem yields equality of the two results. -/
theorem c2_witness :
    get_migration_targets (some ["a/migrations/0002_x.py", "a/migrations/0001_y.py"]) none =
    get_migration_targets (some ["a/migrations/0001_y.py", "a/migrations/0002_x.py"]) none :=
  (c2_amended none ["a/migrations/0002_x.py", "a/migrations/0001_y.py"]
    ["a/migrations/0001_y.py", "a/migrations/0002_x.py"] (by decide) (by decide)).1

/-! ### The Resequencer: feature-only computation -/

/-- Python `dict.get(app, set())` on a mapping from application labels to
sets of migration file names, modelled as an association list (built by a
Python dict, so keys are distinct and the first match is the only one). -/
def dictGetD (d : List (String × Finset String)) (app : String) : Finset String :=
  match d with
  | [] => ∅
  | (a, s) :: rest => if a = app then s else dictGetD rest app

/-- `check_for_potential_merge_migrations(branch, project_root, repo_root,
allowed_labels)`.  The results of the two listers it calls (which are not part
of the repository's sources) are its inputs: `on_branch` is
`get_all_migration_files_on_branch(...)` and `in_tree` is
`get_migration_files_in_working_tree(...)`, both mappings from application
label to the set of migration file names.  The loop body computes
`feature_only = tree_files - branch_files`, skips the application when it is
empty, and records it only when `branch_files` is nonempty. -/
def check_for_potential_merge_migrations (on_branch : List (String × Finset String)) :
    List (String × Finset String) → List (String × Finset String)
  | [] => []
  | (app, tree_files) :: rest =>
      -- branch_files = on_branch.get(app, set());
      -- feature_only = tree_files - branch_files
      if tree_files \ dictGetD on_branch app = ∅ then
        check_for_potential_merge_migrations on_branch rest
      else if dictGetD on_branch app ≠ ∅ then
        (app, tree_files \ dictGetD on_branch app) ::
          check_for_potential_merge_migrations on_branch rest
      else check_for_potential_merge_migrations on_branch rest

theorem check_mem_iff (on_branch : List (String × Finset String)) :
    ∀ (in_tree : List (String × Finset String)) (app : String) (s : Finset String),
      (app, s) ∈ check_for_potential_merge_migrations on_branch in_tree ↔
        ∃ t, (app, t) ∈ in_tree ∧ s = t \ dictGetD on_branch app ∧
          t \ dictGetD on_branch app ≠ ∅ ∧ dictGetD on_branch app ≠ ∅ := by
  intro in_tree
  induction in_tree with
  | nil =>
      intro app s
      simp [check_for_potential_merge_migrations]
  | cons hd rest ih =>
      obtain ⟨a, ta⟩ := hd
      intro app s
      rw [check_for_potential_merge_migrations]
      by_cases hfe : ta \ dictGetD on_branch a = ∅
      · rw [if_pos hfe, ih]
        constructor
        · rintro ⟨t, ht, hs, hne, hbne⟩
          exact ⟨t, List.mem_cons_of_mem _ ht, hs, hne, hbne⟩
        · rintro ⟨t, ht, hs, hne, hbne⟩
          rcases List.mem_cons.mp ht with heq | hmem
          · obtain ⟨h1, h2⟩ := Prod.mk.injEq .. ▸ heq
            subst h1; subst h2
            exact absurd hfe hne
          · exact ⟨t, hmem, hs, hne, hbne⟩
      · rw [if_neg hfe]
        by_cases hb : dictGetD on_branch a ≠ ∅
        · rw [if_pos hb]
          constructor
          · intro h
            rcases List.mem_cons.mp h with heq | hmem
            · obtain ⟨h1, h2⟩ := Prod.mk.injEq .. ▸ heq
              subst h1; subst h2
              exact ⟨ta, List.mem_cons_self _ _, rfl, hfe, hb⟩
            · obtain ⟨t, ht, hs, hne, hbne⟩ := (ih app s).mp hmem
              exact ⟨t, List.mem_cons_of_mem _ ht, hs, hne, hbne⟩
          · rintro ⟨t, ht, hs, hne, hbne⟩
            rcases List.mem_cons.mp ht with heq | hmem
            · obtain ⟨h1, h2⟩ := Prod.mk.injEq .. ▸ heq
              subst h1; subst h2
              rw [hs]
              exact List.mem_cons_self _ _
            · exact List.mem_cons_of_mem _ ((ih app s).mpr ⟨t, hmem, hs, hne, hbne⟩)
        · rw [if_neg hb, ih]
          push_neg at hb
          constructor
          · rintro ⟨t, ht, hs, hne, hbne⟩
            exact ⟨t, List.mem_cons_of_mem _ ht, hs, hne, hbne⟩
          · rintro ⟨t, ht, hs, hne, hbne⟩
            rcases List.mem_cons.mp ht with heq | hmem
            · obtain ⟨h1, h2⟩ := Prod.mk.injEq .. ▸ heq
              subst h1; subst h2
              exact absurd hb hbne
            · exact ⟨t, hmem, hs, hne, hbne⟩

/-- C1: the feature-only computation is the pure set difference
`in_tree[app] - on_branch.get(app, {})`: an application `app` is mapped to
`s` in the result exactly when `in_tree` maps it to some `t` with
`s = t \ on_branch.get(app, ∅)`, that difference is nonempty, and the branch
has at least one migration file for `app`; in particular an application with
identical file sets on both sides contributes nothing. -/
theorem c1_feature_only (on_branch in_tree : List (String × Finset String))
    (hnd : (in_tree.map Prod.fst).Nodup) :
    (∀ app s, (app, s) ∈ check_for_potential_merge_migrations on_branch in_tree ↔
      ∃ t, (app, t) ∈ in_tree ∧ s = t \ dictGetD on_branch app ∧
        t \ dictGetD on_branch app ≠ ∅ ∧ dictGetD on_branch app ≠ ∅) ∧
    (∀ app t, (app, t) ∈ in_tree → t = dictGetD on_branch app →
      app ∉ (check_for_potential_merge_migrations on_branch in_tree).map Prod.fst) := by
  refine ⟨check_mem_iff on_branch in_tree, ?_⟩
  intro app t hmem heq hc
  obtain ⟨q, hs, hfst⟩ := List.mem_map.mp hc
  obtain ⟨t', ht', -, hne, -⟩ := (check_mem_iff on_branch in_tree q.1 q.2).mp (by simpa using hs)
  rw [hfst] at ht' hne
  have ht'' : (app, t') = (app, t) := List.inj_on_of_nodup_map hnd ht' hmem rfl
  have htt : t' = t := congrArg Prod.snd ht''
  apply hne
  rw [htt, heq]
  exact Finset.sdiff_self _

/-- C1 witness, on the spec's own scenario: `blog` has tree files
`{0001_init.py, 0002_add_field.py}` and branch files `{0001_init.py}`,
so it is included with exactly `{0002_add_field.py}`; `shop` has a tree
file but no branch files, so it is excluded. -/
theorem c1_witness :
    ("blog", ({"0002_add_field.py"} : Finset String)) ∈
      check_for_potential_merge_migrations
        [("blog", {"0001_init.py"})]
        [("blog", {"0001_init.py", "0002_add_field.py"}), ("shop", {"0001_init.py"})] ∧
    "shop" ∉ (check_for_potential_merge_migrations
        [("blog", {"0001_init.py"})]
        [("blog", {"0001_init.py", "0002_add_field.py"}),
         ("shop", {"0001_init.py"})]).map Prod.fst := by
  constructor
  · exact ((c1_feature_only [("blog", {"0001_init.py"})]
      [("blog", {"0001_init.py", "0002_add_field.py"}), ("shop", {"0001_init.py"})]
      (by decide)).1 "blog" {"0002_add_field.py"}).mpr
      ⟨{"0001_init.py", "0002_add_field.py"}, by decide, by decide, by decide, by decide⟩
  · intro hc
    obtain ⟨q, hs, hfst⟩ := List.mem_map.mp hc
    obtain ⟨t, ht, -, hne, hbne⟩ := ((c1_feature_only [("blog", {"0001_init.py"})]
      [("blog", {"0001_init.py", "0002_add_field.py"}), ("shop", {"0001_init.py"})]
      (by decide)).1 q.1 q.2).mp (by simpa using hs)
    rw [hfst] at hbne
    exact hbne (by decide)

/-! ### The Resequencer: file deletion -/

/-- Explicit filesystem state: the sets of existing directories and existing
regular files (migration files under a `migrations/` directory are regular
files, so `path.exists()` for the paths probed by `delete_migration_files`
is membership in `files`). -/
structure FS where
  dirs : Finset String
  files : Finset String

/-- The inner loop of `delete_migration_files`: for each name, if
`mig_dir / name` exists, unlink it and record it in `deleted`. -/
def unlinkNames : FS → String → List String → FS × List String
  | fs, _, [] => (fs, [])
  | fs, mig_dir, name :: rest =>
      if mig_dir ++ "/" ++ name ∈ fs.files then
        ((unlinkNames ⟨fs.dirs, fs.files.erase (mig_dir ++ "/" ++ name)⟩ mig_dir rest).1,
          (mig_dir ++ "/" ++ name) ::
            (unlinkNames ⟨fs.dirs, fs.files.erase (mig_dir ++ "/" ++ name)⟩ mig_dir rest).2)
      else unlinkNames fs mig_dir rest

/-- `delete_migration_files(project_root, to_remove)`: for each application,
skip it silently when `project_root / app / "migrations"` is not a directory,
otherwise unlink every listed name that exists; returns the final filesystem
state and the list of deleted paths.  The sets of file names in the Python
dict `to_remove` are given in some iteration order as lists. -/
def delete_migration_files : FS → String → List (String × List String) → FS × List String
  | fs, _, [] => (fs, [])
  | fs, project_root, (app, names) :: rest =>
      if project_root ++ "/" ++ app ++ "/migrations" ∈ fs.dirs then
        ((delete_migration_files
            (unlinkNames fs (project_root ++ "/" ++ app ++ "/migrations") names).1
            project_root rest).1,
          (unlinkNames fs (project_root ++ "/" ++ app ++ "/migrations") names).2 ++
            (delete_migration_files
              (unlinkNames fs (project_root ++ "/" ++ app ++ "/migrations") names).1
              project_root rest).2)
      else delete_migration_files fs project_root rest

theorem string_append_left_cancel {a b c : String} (h : a ++ b = a ++ c) : b = c := by
  have hd := congrArg String.data h
  simp only [String.data_append] at hd
  have hbc := List.append_cancel_left hd
  cases b
  cases c
  exact congrArg String.mk hbc

theorem unlinkNames_dirs :
    ∀ (names : List String) (fs : FS) (dir : String),
      (unlinkNames fs dir names).1.dirs = fs.dirs := by
  intro names
  induction names with
  | nil =>
      intro fs dir
      rfl
  | cons name rest ih =>
      intro fs dir
      rw [unlinkNames]
      by_cases hm : dir ++ "/" ++ name ∈ fs.files
      · rw [if_pos hm]
        exact ih _ dir
      · rw [if_neg hm]
        exact ih fs dir

theorem unlinkNames_files :
    ∀ (names : List String) (fs : FS) (dir : String),
      (unlinkNames fs dir names).1.files =
        fs.files \ (unlinkNames fs dir names).2.toFinset := by
  intro names
  induction names with
  | nil =>
      intro fs dir
      simp [unlinkNames]
  | cons name rest ih =>
      intro fs dir
      rw [unlinkNames]
      by_cases hm : dir ++ "/" ++ name ∈ fs.files
      · rw [if_pos hm]
        simp only
        rw [ih]
        ext x
        simp only [Finset.mem_sdiff, Finset.mem_erase, List.toFinset_cons, Finset.mem_insert,
          List.mem_toFinset]
        constructor
        · rintro ⟨⟨hne, hx⟩, hnd⟩
          exact ⟨hx, fun hc => hc.elim hne hnd⟩
        · rintro ⟨hx, hnd⟩
          exact ⟨⟨fun hc => hnd (Or.inl hc), hx⟩, fun hc => hnd (Or.inr hc)⟩
      · rw [if_neg hm]
        exact ih fs dir

theorem unlinkNames_sub :
    ∀ (names : List String) (fs : FS) (dir : String) (p : String),
      p ∈ (unlinkNames fs dir names).2 →
        p ∈ fs.files ∧ ∃ name ∈ names, p = dir ++ "/" ++ name := by
  intro names
  induction names with
  | nil =>
      intro fs dir p hp
      exact absurd hp (List.not_mem_nil _)
  | cons name rest ih =>
      intro fs dir p hp
      rw [unlinkNames] at hp
      by_cases hm : dir ++ "/" ++ name ∈ fs.files
      · rw [if_pos hm] at hp
        rcases List.mem_cons.mp hp with rfl | hp'
        · exact ⟨hm, name, List.mem_cons_self _ _, rfl⟩
        · obtain ⟨hpf, n, hn, rfl⟩ := ih _ dir _ hp'
          have hpf' : dir ++ "/" ++ n ∈ fs.files := (Finset.mem_erase.mp hpf).2
          exact ⟨hpf', n, List.mem_cons_of_mem _ hn, rfl⟩
      · rw [if_neg hm] at hp
        obtain ⟨hpf, n, hn, rfl⟩ := ih fs dir _ hp
        exact ⟨hpf, n, List.mem_cons_of_mem _ hn, rfl⟩

theorem unlinkNames_complete :
    ∀ (names : List String) (fs : FS) (dir : String) (name : String),
      name ∈ names → dir ++ "/" ++ name ∈ fs.files →
        dir ++ "/" ++ name ∈ (unlinkNames fs dir names).2 := by
  intro names
  induction names with
  | nil =>
      intro fs dir name hn
      exact absurd hn (List.not_mem_nil _)
  | cons name' rest ih =>
      intro fs dir name hn hf
      rw [unlinkNames]
      by_cases hm : dir ++ "/" ++ name' ∈ fs.files
      · rw [if_pos hm]
        by_cases hnn : name = name'
        · subst hnn
          exact List.mem_cons_self _ _
        · have hn' : name ∈ rest := by
            rcases List.mem_cons.mp hn with rfl | h
            · exact absurd rfl hnn
            · exact h
          have hne : dir ++ "/" ++ name ≠ dir ++ "/" ++ name' := by
            intro hc
            exact hnn (string_append_left_cancel hc)
          have hf' : dir ++ "/" ++ name ∈
              (⟨fs.dirs, fs.files.erase (dir ++ "/" ++ name')⟩ : FS).files :=
            Finset.mem_erase.mpr ⟨hne, hf⟩
          exact List.mem_cons_of_mem _ (ih _ dir name hn' hf')
      · rw [if_neg hm]
        have hn' : name ∈ rest := by
          rcases List.mem_cons.mp hn with rfl | h
          · exact absurd hf hm
          · exact h
        exact ih fs dir name hn' hf

theorem delete_migration_files_dirs :
    ∀ (tr : List (String × List String)) (fs : FS) (root : String),
      (delete_migration_files fs root tr).1.dirs = fs.dirs := by
  intro tr
  induction tr with
  | nil =>
      intro fs root
      rfl
  | cons hd rest ih =>
      obtain ⟨app, names⟩ := hd
      intro fs root
      rw [delete_migration_files]
      by_cases hm : root ++ "/" ++ app ++ "/migrations" ∈ fs.dirs
      · rw [if_pos hm]
        simp only
        rw [ih, unlinkNames_dirs]
      · rw [if_neg hm]
        exact ih fs root

theorem delete_migration_files_files :
    ∀ (tr : List (String × List String)) (fs : FS) (root : String),
      (delete_migration_files fs root tr).1.files =
        fs.files \ (delete_migration_files fs root tr).2.toFinset := by
  intro tr
  induction tr with
  | nil =>
      intro fs root
      simp [delete_migration_files]
  | cons hd rest ih =>
      obtain ⟨app, names⟩ := hd
      intro fs root
      rw [delete_migration_files]
      by_cases hm : root ++ "/" ++ app ++ "/migrations" ∈ fs.dirs
      · rw [if_pos hm]
        simp only
        rw [ih, unlinkNames_files]
        ext x
        simp only [Finset.mem_sdiff, List.toFinset_append, Finset.mem_union, List.mem_toFinset]
        constructor
        · rintro ⟨⟨hx, h1⟩, h2⟩
          exact ⟨hx, fun hc => hc.elim h1 h2⟩
        · rintro ⟨hx, h12⟩
          exact ⟨⟨hx, fun hc => h12 (Or.inl hc)⟩, fun hc => h12 (Or.inr hc)⟩
      · rw [if_neg hm]
        exact ih fs root

theorem delete_migration_files_sub :
    ∀ (tr : List (String × List String)) (fs : FS) (root : String) (p : String),
      p ∈ (delete_migration_files fs root tr).2 →
        p ∈ fs.files ∧ ∃ app names, (app, names) ∈ tr ∧
          root ++ "/" ++ app ++ "/migrations" ∈ fs.dirs ∧
          ∃ name ∈ names, p = root ++ "/" ++ app ++ "/migrations" ++ "/" ++ name := by
  intro tr
  induction tr with
  | nil =>
      intro fs root p hp
      exact absurd hp (List.not_mem_nil _)
  | cons hd rest ih =>
      obtain ⟨app, names⟩ := hd
      intro fs root p hp
      rw [delete_migration_files] at hp
      by_cases hm : root ++ "/" ++ app ++ "/migrations" ∈ fs.dirs
      · rw [if_pos hm] at hp
        simp only at hp
        rcases List.mem_append.mp hp with h1 | h2
        · obtain ⟨hpf, n, hn, rfl⟩ := unlinkNames_sub names fs _ p h1
          exact ⟨hpf, app, names, List.mem_cons_self _ _, hm, n, hn, rfl⟩
        · obtain ⟨hpf, a, ns, ha, hd', n, hn, rfl⟩ := ih _ root p h2
          rw [unlinkNames_files] at hpf
          rw [unlinkNames_dirs] at hd'
          exact ⟨(Finset.mem_sdiff.mp hpf).1, a, ns, List.mem_cons_of_mem _ ha, hd', n, hn, rfl⟩
      · rw [if_neg hm] at hp
        obtain ⟨hpf, a, ns, ha, hd', n, hn, rfl⟩ := ih fs root p hp
        exact ⟨hpf, a, ns, List.mem_cons_of_mem _ ha, hd', n, hn, rfl⟩

theorem delete_migration_files_complete :
    ∀ (tr : List (String × List String)) (fs : FS) (root : String)
      (app : String) (names : List String) (name : String),
      (app, names) ∈ tr → name ∈ names →
      root ++ "/" ++ app ++ "/migrations" ∈ fs.dirs →
      root ++ "/" ++ app ++ "/migrations" ++ "/" ++ name ∈ fs.files →
      root ++ "/" ++ app ++ "/migrations" ++ "/" ++ name ∈
        (delete_migration_files fs root tr).2 := by
  intro tr
  induction tr with
  | nil =>
      intro fs root app names name hmem
      exact absurd hmem (List.not_mem_nil _)
  | cons hd rest ih =>
      obtain ⟨a, ns⟩ := hd
      intro fs root app names name hmem hn hdir hfile
      rw [delete_migration_files]
      rcases List.mem_cons.mp hmem with heq | hmem'
      · obtain ⟨h1, h2⟩ := Prod.mk.injEq .. ▸ heq
        subst h1; subst h2
        rw [if_pos hdir]
        simp only
        exact List.mem_append.mpr (Or.inl (unlinkNames_complete names fs _ name hn hfile))
      · by_cases hm : root ++ "/" ++ a ++ "/migrations" ∈ fs.dirs
        · rw [if_pos hm]
          simp only
          set p := root ++ "/" ++ app ++ "/migrations" ++ "/" ++ name with hpdef
          by_cases hdel : p ∈ (unlinkNames fs (root ++ "/" ++ a ++ "/migrations") ns).2
          · exact List.mem_append.mpr (Or.inl hdel)
          · refine List.mem_append.mpr (Or.inr ?_)
            refine ih _ root app names name hmem' hn ?_ ?_
            · rw [unlinkNames_dirs]
              exact hdir
            · rw [unlinkNames_files]
              exact Finset.mem_sdiff.mpr ⟨hfile, fun hc => hdel (List.mem_toFinset.mp hc)⟩
        · rw [if_neg hm]
          exact ih fs root app names name hmem' hn hdir hfile

/-- C10: `delete_migration_files` deletes exactly the named files that exist
under a present `<project_root>/<app>/migrations/` directory, skips silently
any application whose migrations directory is missing and any named file
that does not exist, and the returned list is precisely the set of paths
removed from the filesystem: the final file set is the initial one minus
the returned paths, every returned path existed and was named by `to_remove`
under a present migrations directory, every named existing file under a
present migrations directory is returned, and directories are untouched. -/
theorem c10_delete_exact (fs : FS) (root : String) (tr : List (String × List String)) :
    (delete_migration_files fs root tr).1.dirs = fs.dirs ∧
    (delete_migration_files fs root tr).1.files =
      fs.files \ (delete_migration_files fs root tr).2.toFinset ∧
    (∀ p ∈ (delete_migration_files fs root tr).2,
      p ∈ fs.files ∧ ∃ app names, (app, names) ∈ tr ∧
        root ++ "/" ++ app ++ "/migrations" ∈ fs.dirs ∧
        ∃ name ∈ names, p = root ++ "/" ++ app ++ "/migrations" ++ "/" ++ name) ∧
    (∀ app names name, (app, names) ∈ tr → name ∈ names →
      root ++ "/" ++ app ++ "/migrations" ∈ fs.dirs →
      root ++ "/" ++ app ++ "/migrations" ++ "/" ++ name ∈ fs.files →
      root ++ "/" ++ app ++ "/migrations" ++ "/" ++ name ∈
        (delete_migration_files fs root tr).2) :=
  ⟨delete_migration_files_dirs tr fs root,
   delete_migration_files_files tr fs root,
   fun p hp => delete_migration_files_sub tr fs root p hp,
   fun app names name h1 h2 h3 h4 =>
     delete_migration_files_complete tr fs root app names name h1 h2 h3 h4⟩

/-- C10 witness: a migrations directory with one existing and one missing
file, plus an application with a missing migrations directory; the theorem
applied at this input shows the existing named file is deleted. -/
theorem c10_witness :
    "r/a/migrations" ++ "/" ++ "0002_x.py" ∈
      (delete_migration_files
        ⟨{"r/a/migrations"}, {"r/a/migrations/0002_x.py", "r/b/migrations/0001_y.py"}⟩
        "r" [("a", ["0002_x.py", "0003_gone.py"]), ("b", ["0001_y.py"])]).2 :=
  (c10_delete_exact
    ⟨{"r/a/migrations"}, {"r/a/migrations/0002_x.py", "r/b/migrations/0001_y.py"}⟩
    "r" [("a", ["0002_x.py", "0003_gone.py"]), ("b", ["0001_y.py"])]).2.2.2
    "a" ["0002_x.py", "0003_gone.py"] "0002_x.py" (by decide) (by decide) (by decide) (by decide)

/-! ### The drivers: Resetter `main` and Resequencer `run_resequence`

Both are embedded as pure functions from an environment record — the results
of the external commands they consult — to the pair of their exit code and
the trace of mutating external actions.  Queries (`git rev-parse`,
`git ls-tree`, settings introspection, the confirmation prompt) are
read-only and appear as environment fields; the mutating actions are the
constructors of `MutEffect`. -/

/-- A mutating external action performed by one of the drivers. -/
inductive MutEffect where
  | migrate (app migration : String)
  | checkout (branch : String)
  | deleteFile (path : String)
  | makemigrations
deriving DecidableEq, Repr

/-- Python truthiness of `git_cmd`'s result (`None` and `""` are falsy),
as tested by `if not git_cmd(["rev-parse", "--verify", args.branch])`. -/
def optTruthy : Option String → Bool
  | none => false
  | some s => !(s == "")

/-- The `for app, migration in targets: if not run_migrate(...): return 1`
loop of `main`.  In dry-run mode `run_migrate` only prints and returns
`True`; otherwise it launches the migrate subprocess (one `MutEffect.migrate`
per launch, recorded even when the subprocess fails) and returns whether it
exited with code 0 (`env_ok`).  Returns whether every migrate succeeded
together with the trace, which stops at the first failure. -/
def migrateLoop (env_ok : String → String → Bool) (dry : Bool) :
    List (String × String) → Bool × List MutEffect
  | [] => (true, [])
  | (app, migration) :: rest =>
      if dry then migrateLoop env_ok dry rest
      else if env_ok app migration then
        ((migrateLoop env_ok dry rest).1,
          MutEffect.migrate app migration :: (migrateLoop env_ok dry rest).2)
      else (false, [MutEffect.migrate app migration])

/-- Command-line arguments of the Resetter. -/
structure ResetterArgs where
  branch : String
  dry_flag : Bool
  skip_checkout : Bool
  force : Bool

/-- Results of the read-only external queries that the Resetter `main`
makes, in program order: `find_project_root()`; the combined outcome of the
`not repo_root or not repo_root.exists()` test after
`git rev-parse --show-toplevel` (`repo_ok = true` means the test passed);
the stdout of `git rev-parse --verify <branch>`; the stdout of
`git rev-parse --abbrev-ref HEAD`; `get_installed_app_dirs` (`none` models
the SettingsLoadFailed fallback, which only prints a warning); the lines of
`git ls-tree -r <branch> --name-only` (`none` for a failed subprocess);
whether each `manage.py migrate app migration --noinput` subprocess exits 0;
and whether `git checkout <branch>` exits 0. -/
structure ResetterEnv where
  project_root : Option String
  repo_ok : Bool
  branch_verify : Option String
  current_branch : Option String
  allowed_labels : Option (List String)
  ls_tree : Option (List String)
  migrate_ok : String → String → Bool
  checkout_ok : Bool

/-- The Resetter's `main`, returning its exit code and the trace of mutating
external actions. -/
def main (env : ResetterEnv) (args : ResetterArgs) : Nat × List MutEffect :=
  match env.project_root with
  | none => (1, [])
  | some _ =>
    if env.repo_ok = false then (1, [])
    else if optTruthy env.branch_verify = false then (1, [])
    else if env.current_branch = some args.branch ∧ args.force = false then (0, [])
    else
      if (migrateLoop env.migrate_ok args.dry_flag
          (get_migration_targets env.ls_tree env.allowed_labels)).1 = false then
        (1, (migrateLoop env.migrate_ok args.dry_flag
          (get_migration_targets env.ls_tree env.allowed_labels)).2)
      else if args.skip_checkout = true then
        (0, (migrateLoop env.migrate_ok args.dry_flag
          (get_migration_targets env.ls_tree env.allowed_labels)).2)
      else if args.dry_flag = true then
        (0, (migrateLoop env.migrate_ok args.dry_flag
          (get_migration_targets env.ls_tree env.allowed_labels)).2)
      else if env.checkout_ok = true then
        (0, (migrateLoop env.migrate_ok args.dry_flag
          (get_migration_targets env.ls_tree env.allowed_labels)).2 ++
          [MutEffect.checkout args.branch])
      else
        (1, (migrateLoop env.migrate_ok args.dry_flag
          (get_migration_targets env.ls_tree env.allowed_labels)).2 ++
          [MutEffect.checkout args.branch])

/-- `reply.strip().lower()` of the confirmation prompt. -/
def pyLowerStrip (s : String) : String :=
  String.mk ((pyStrip s.toList).map Char.toLower)

/-- The confirmation check of `run_resequence`: `none` models `input` raising
`EOFError`/`KeyboardInterrupt` (abort); otherwise proceed exactly when the
stripped, lowered reply is `"y"` or `"yes"`. -/
def confirmProceed (reply : Option String) : Bool :=
  match reply with
  | none => false
  | some r => pyLowerStrip r == "y" || pyLowerStrip r == "yes"

/-- Results of the external interactions of `run_resequence`, in program
order: the outputs of the two listers consumed by
`check_for_potential_merge_migrations` (these listers are imported but not
defined in the repository's sources, so their results are inputs here); the
confirmation reply read from stdin; the filesystem state seen by
`delete_migration_files`; the project root; and whether the single
`manage.py makemigrations` subprocess exits 0. -/
structure ResequenceEnv where
  on_branch : List (String × Finset String)
  in_tree : List (String × Finset String)
  reply : Option String
  fs : FS
  project_root : String
  makemigrations_ok : Bool

/-- `run_resequence(branch, project_root, repo_root, dry_run=…, yes=…)`,
returning its exit code and the trace of mutating external actions (the
deletions actually performed, then the single makemigrations launch). -/
def run_resequence (env : ResequenceEnv) (dry yes : Bool) : Nat × List MutEffect :=
  if check_for_potential_merge_migrations env.on_branch env.in_tree = [] then (0, [])
  else if dry = true then (0, [])
  else if yes = false ∧ confirmProceed env.reply = false then (1, [])
  else
    if env.makemigrations_ok = true then
      (0, ((delete_migration_files env.fs env.project_root
          ((check_for_potential_merge_migrations env.on_branch env.in_tree).map
            (fun p => (p.1, p.2.sort (fun a b => a ≤ b))))).2.map MutEffect.deleteFile) ++
        [MutEffect.makemigrations])
    else
      (1, ((delete_migration_files env.fs env.project_root
          ((check_for_potential_merge_migrations env.on_branch env.in_tree).map
            (fun p => (p.1, p.2.sort (fun a b => a ≤ b))))).2.map MutEffect.deleteFile) ++
        [MutEffect.makemigrations])

/-! ### Lemmas about the migrate loop and the drivers -/

theorem migrateLoop_dry (env_ok : String → String → Bool) :
    ∀ ts, migrateLoop env_ok true ts = (true, []) := by
  intro ts
  induction ts with
  | nil => rfl
  | cons t rest ih =>
      obtain ⟨app, migration⟩ := t
      rw [migrateLoop, if_pos rfl]
      exact ih

theorem migrateLoop_all_ok (env_ok : String → String → Bool) :
    ∀ ts, (∀ t ∈ ts, env_ok t.1 t.2 = true) →
      migrateLoop env_ok false ts =
        (true, ts.map (fun t => MutEffect.migrate t.1 t.2)) := by
  intro ts
  induction ts with
  | nil =>
      intro _
      rfl
  | cons t rest ih =>
      obtain ⟨app, migration⟩ := t
      intro h
      rw [migrateLoop, if_neg (by simp), if_pos (h (app, migration) (List.mem_cons_self _ _))]
      rw [ih (fun t ht => h t (List.mem_cons_of_mem _ ht))]
      rfl

theorem migrateLoop_first_fail (env_ok : String → String → Bool) :
    ∀ (l₁ : List (String × String)) (t : String × String) (l₂ : List (String × String)),
      (∀ t' ∈ l₁, env_ok t'.1 t'.2 = true) → env_ok t.1 t.2 = false →
      migrateLoop env_ok false (l₁ ++ t :: l₂) =
        (false, l₁.map (fun t' => MutEffect.migrate t'.1 t'.2) ++
          [MutEffect.migrate t.1 t.2]) := by
  intro l₁
  induction l₁ with
  | nil =>
      intro t l₂ _ hfail
      obtain ⟨app, migration⟩ := t
      rw [List.nil_append, migrateLoop, if_neg (by simp), if_neg (by simp [hfail])]
      rfl
  | cons t' l₁' ih =>
      intro t l₂ hok hfail
      obtain ⟨app', migration'⟩ := t'
      rw [List.cons_append, migrateLoop, if_neg (by simp),
        if_pos (hok (app', migration') (List.mem_cons_self _ _))]
      rw [ih t l₂ (fun x hx => hok x (List.mem_cons_of_mem _ hx)) hfail]
      rfl

theorem run_resequence_dry (env : ResequenceEnv) (yes : Bool) :
    run_resequence env true yes = (0, []) := by
  rw [run_resequence]
  by_cases h : check_for_potential_merge_migrations env.on_branch env.in_tree = []
  · rw [if_pos h]
  · rw [if_neg h, if_pos rfl]

theorem main_dry_no_effects (env : ResetterEnv) (branch : String) (skip force : Bool) :
    (main env ⟨branch, true, skip, force⟩).2 = [] := by
  rw [main]
  cases env.project_root with
  | none => rfl
  | some pr =>
      simp only
      by_cases h1 : env.repo_ok = false
      · rw [if_pos h1]
      · rw [if_neg h1]
        by_cases h2 : optTruthy env.branch_verify = false
        · rw [if_pos h2]
        · rw [if_neg h2]
          by_cases h3 : env.current_branch = some branch ∧ force = false
          · rw [if_pos h3]
          · rw [if_neg h3]
            rw [migrateLoop_dry]
            simp

/-! ### Claim C3 -/

/-- C3: in dry-run mode neither tool mutates anything, regardless of all
other flags: the Resetter's trace of mutating external actions is empty
(migrate and checkout commands are only printed), and the Resequencer
returns exit code 0 with an empty trace — before any deletion or
makemigrations launch — even when `yes=True`. -/
theorem c3_dry_no_mutation :
    (∀ (env : ResetterEnv) (branch : String) (skip force : Bool),
      (main env ⟨branch, true, skip, force⟩).2 = []) ∧
    (∀ (renv : ResequenceEnv) (yes : Bool), run_resequence renv true yes = (0, [])) :=
  ⟨fun env branch skip force => main_dry_no_effects env branch skip force,
   fun renv yes => run_resequence_dry renv yes⟩

/-! ### Claim C5 -/

/-- C5: when the current branch equals the target branch and `--force` is not
given, the Resetter is a no-op: it exits 0 having performed no mutating
external action; likewise the Resequencer exits 0 with no mutating action
whenever apply is not requested (`dry_run=True`, its default). -/
theorem c5_noop_on_target_branch :
    (∀ (env : ResetterEnv) (args : ResetterArgs) (pr : String),
      env.project_root = some pr → env.repo_ok = true →
      optTruthy env.branch_verify = true →
      env.current_branch = some args.branch → args.force = false →
      main env args = (0, [])) ∧
    (∀ (renv : ResequenceEnv) (yes : Bool), run_resequence renv true yes = (0, [])) := by
  constructor
  · intro env args pr h1 h2 h3 h4 h5
    rw [main, h1]
    simp only
    rw [if_neg (by simp [h2]), if_neg (by simp [h3]), if_pos ⟨h4, h5⟩]
  · exact fun renv yes => run_resequence_dry renv yes

/-- C5 witness: concrete environment already on the target branch `dev`,
no force; the Resetter exits 0 with no mutating action. -/
theorem c5_witness :
    main ⟨some "/p", true, some "abc", some "dev", none, none, fun _ _ => true, true⟩
      ⟨"dev", false, false, false⟩ = (0, []) :=
  c5_noop_on_target_branch.1
    ⟨some "/p", true, some "abc", some "dev", none, none, fun _ _ => true, true⟩
    ⟨"dev", false, false, false⟩ "/p" rfl rfl (by decide) rfl rfl

/-! ### Claim C6 -/

/-- C6: with dry-run off, the Resetter stops at the first `manage.py migrate`
subprocess that exits non-zero: it returns exit code 1 and its trace is the
migrate launches for the preceding targets plus the failing one, with no
migrate attempted for any remaining application; and if every migrate
succeeds it proceeds past the migration phase (its trace is all the migrate
launches followed by the checkout step as selected by the flags). -/
theorem c6_stop_at_first_failure (env : ResetterEnv) (args : ResetterArgs) (pr : String)
    (h1 : env.project_root = some pr) (h2 : env.repo_ok = true)
    (h3 : optTruthy env.branch_verify = true)
    (h4 : ¬(env.current_branch = some args.branch ∧ args.force = false))
    (h5 : args.dry_flag = false) :
    (∀ (l₁ : List (String × String)) (t : String × String) (l₂ : List (String × String)),
      get_migration_targets env.ls_tree env.allowed_labels = l₁ ++ t :: l₂ →
      (∀ t' ∈ l₁, env.migrate_ok t'.1 t'.2 = true) → env.migrate_ok t.1 t.2 = false →
      main env args = (1, l₁.map (fun t' => MutEffect.migrate t'.1 t'.2) ++
        [MutEffect.migrate t.1 t.2])) ∧
    ((∀ t ∈ get_migration_targets env.ls_tree env.allowed_labels,
        env.migrate_ok t.1 t.2 = true) →
      main env args =
        ((if args.skip_checkout = true then 0
          else if env.checkout_ok = true then 0 else 1),
         (get_migration_targets env.ls_tree env.allowed_labels).map
            (fun t => MutEffect.migrate t.1 t.2) ++
          (if args.skip_checkout = true then []
           else [MutEffect.checkout args.branch]))) := by
  constructor
  · intro l₁ t l₂ hts hok hfail
    rw [main, h1]
    simp only
    rw [if_neg (by simp [h2]), if_neg (by simp [h3]), if_neg h4, h5, hts,
      migrateLoop_first_fail env.migrate_ok l₁ t l₂ hok hfail]
    simp
  · intro hallok
    rw [main, h1]
    simp only
    rw [if_neg (by simp [h2]), if_neg (by simp [h3]), if_neg h4, h5,
      migrateLoop_all_ok env.migrate_ok _ hallok]
    by_cases hskip : args.skip_checkout = true
    · rw [if_neg (by simp), if_pos hskip, if_pos hskip, if_pos hskip]
      simp
    · rw [if_neg (by simp), if_neg hskip, if_neg hskip, if_neg hskip, if_neg (by simp [h5])]
      by_cases hco : env.checkout_ok = true
      · rw [if_pos hco, if_pos hco]
      · rw [if_neg hco, if_neg hco]

/-- C6 witness: two targets, the first migrate succeeds and the second
fails; the Resetter exits 1 having launched exactly the two migrate
subprocesses and nothing afterwards. -/
theorem c6_witness :
    main ⟨some "/p", true, some "abc", some "feature", none,
        some ["a/migrations/0001_x.py", "b/migrations/0001_y.py"],
        fun app _ => app == "a", true⟩
      ⟨"dev", false, false, false⟩ =
      (1, [MutEffect.migrate "a" "0001_x", MutEffect.migrate "b" "0001_y"]) :=
  (c6_stop_at_first_failure
    ⟨some "/p", true, some "abc", some "feature", none,
      some ["a/migrations/0001_x.py", "b/migrations/0001_y.py"],
      fun app _ => app == "a", true⟩
    ⟨"dev", false, false, false⟩ "/p" rfl rfl (by decide) (by decide) rfl).1
    [("a", "0001_x")] ("b", "0001_y") [] (by rfl) (by decide) (by decide)

/-! ### Claim C4 -/

/-- C4 counterexample: every external query succeeds except
`git ls-tree -r dev --name-only`, which fails (its `git_cmd` returns `None`);
the claim requires the Resetter to terminate with exit code 1, but the code
treats the failure as "no migrations found" and exits 0 (here with
`--skip-checkout`, performing nothing at all). -/
theorem c4_counterexample :
    main ⟨some "/p", true, some "abc", some "feature", none, none, fun _ _ => true, true⟩
      ⟨"dev", false, true, false⟩ = (0, []) := by
  decide

/-- C4 (amended): a failing branch-verification git command, a failing
migrate subprocess and a failing checkout subprocess each terminate the
Resetter with exit code 1 (and settings-load failure remains non-fatal, the
run continuing with the all-applications fallback); but a failing
`git ls-tree` during migration listing is NOT fatal: it yields an empty
target list and the run continues, exiting 0 when the remaining steps
succeed. -/
theorem c4_subprocess_failures :
    (∀ (env : ResetterEnv) (args : ResetterArgs) (pr : String),
      env.project_root = some pr → env.repo_ok = true → env.branch_verify = none →
      main env args = (1, [])) ∧
    (∀ (env : ResetterEnv) (args : ResetterArgs) (pr : String),
      env.project_root = some pr → env.repo_ok = true →
      optTruthy env.branch_verify = true →
      ¬(env.current_branch = some args.branch ∧ args.force = false) →
      args.dry_flag = false →
      ∀ (l₁ : List (String × String)) (t : String × String) (l₂ : List (String × String)),
        get_migration_targets env.ls_tree env.allowed_labels = l₁ ++ t :: l₂ →
        (∀ t' ∈ l₁, env.migrate_ok t'.1 t'.2 = true) → env.migrate_ok t.1 t.2 = false →
        (main env args).1 = 1) ∧
    (∀ (env : ResetterEnv) (args : ResetterArgs) (pr : String),
      env.project_root = some pr → env.repo_ok = true →
      optTruthy env.branch_verify = true →
      ¬(env.current_branch = some args.branch ∧ args.force = false) →
      args.dry_flag = false → args.skip_checkout = false →
      (∀ t ∈ get_migration_targets env.ls_tree env.allowed_labels,
        env.migrate_ok t.1 t.2 = true) →
      env.checkout_ok = false →
      (main env args).1 = 1) ∧
    (∀ (env : ResetterEnv) (args : ResetterArgs) (pr : String),
      env.project_root = some pr → env.repo_ok = true →
      optTruthy env.branch_verify = true →
      ¬(env.current_branch = some args.branch ∧ args.force = false) →
      env.ls_tree = none → args.skip_checkout = true →
      main env args = (0, [])) := by
  refine ⟨?_, ?_, ?_, ?_⟩
  · intro env args pr h1 h2 h3
    rw [main, h1]
    simp only
    rw [if_neg (by simp [h2]), if_pos (by rw [h3]; rfl)]
  · intro env args pr h1 h2 h3 h4 h5 l₁ t l₂ hts hok hfail
    rw [(c6_stop_at_first_failure env args pr h1 h2 h3 h4 h5).1 l₁ t l₂ hts hok hfail]
  · intro env args pr h1 h2 h3 h4 h5 hskip hallok hco
    rw [(c6_stop_at_first_failure env args pr h1 h2 h3 h4 h5).2 hallok]
    simp [hskip, hco]
  · intro env args pr h1 h2 h3 h4 hls hskip
    rw [main, h1]
    simp only
    rw [if_neg (by simp [h2]), if_neg (by simp [h3]), if_neg h4, hls]
    have hempty : get_migration_targets none env.allowed_labels = [] := rfl
    rw [hempty]
    cases hd : args.dry_flag with
    | true =>
        rw [migrateLoop_dry]
        rw [if_neg (by simp), if_pos hskip]
    | false =>
        rw [migrateLoop_all_ok env.migrate_ok [] (by intro t ht; exact absurd ht (List.not_mem_nil _))]
        rw [if_neg (by simp), if_pos hskip]
        rfl

/-- C4 amended witness: a failing `git rev-parse --verify` terminates with
exit code 1 and no mutating action. -/
theorem c4_witness :
    main ⟨some "/p", true, none, some "feature", none, some [], fun _ _ => true, true⟩
      ⟨"dev", false, false, false⟩ = (1, []) :=
  c4_subprocess_failures.1
    ⟨some "/p", true, none, some "feature", none, some [], fun _ _ => true, true⟩
    ⟨"dev", false, false, false⟩ "/p" rfl rfl rfl

end DjangoSync
